import Mathlib

/-! Verification of the Empirical Bayes spatial-smoothing core of
`empirical_bayes.py` (functions `get_neighborhood_params` and `do_eb`).

The embedding works over `ℚ`.  A `Cell` models one row of the annotated
grid table (after the centroid and `dist_to_basket` columns have been
computed): `dist` is the value of the `dist_to_basket` column.  It is
carried as a field rather than recomputed because its definition is a
square root, which leaves `ℚ`; every theorem below quantifies over all
rational values of `dist`, which includes all values the annotator can
produce.  The spatial-proximity test `euclid(c, n) ≤ close_range` is
stated on squares, `sqDist c n ≤ close_range ^ 2`, which is equivalent
because `close_range` is always positive. -/

structure Cell where
  x : ℚ
  y : ℚ
  attempts : ℕ
  points : ℚ
  dist : ℚ
deriving DecidableEq, Repr

/-- The `PPA` column: `np.where(attempts > 0, points / attempts, 0)`. -/
def PPA (c : Cell) : ℚ :=
  if 0 < c.attempts then c.points / (c.attempts : ℚ) else 0

/-- Band radius `equidistant_range` from `get_neighborhood_params`: fixed
close to the basket, growing linearly with `dist_to_basket` beyond the
9.144 threshold. -/
def equidistant_range (d : ℚ) : ℚ :=
  if d < 9.144 then 0.3658 else 0.3658 + 0.1524 * (d - 9.144)

/-- Proximity radius `close_range` from `get_neighborhood_params`: fixed
close to the basket, growing linearly beyond the 9.144 threshold. -/
def close_range (d : ℚ) : ℚ :=
  if d < 9.144 then 1.524 else 1.524 + 0.3048 * (d - 9.144)

/-- Squared Euclidean distance between two cell centroids. -/
def sqDist (a b : Cell) : ℚ :=
  (a.x - b.x) ^ 2 + (a.y - b.y) ^ 2

/-- The three-way conjunction filtering the neighborhood in
`get_neighborhood_params`: distance band, spatial proximity (stated on
squares), and positive attempts. -/
def is_neighbor (row n : Cell) : Bool :=
  decide (|n.dist - row.dist| ≤ equidistant_range row.dist) &&
  decide (sqDist row n ≤ (close_range row.dist) ^ 2) &&
  decide (0 < n.attempts)

/-- The selector `get_neighborhood_params(row, gdf)`: the subset of `gdf` passing all
three filter conditions.  Note the source does not exclude `row` itself. -/
def get_neighborhood_params (row : Cell) (gdf : List Cell) : List Cell :=
  gdf.filter (is_neighbor row)

/-- Pooled attempts `total_shots`: the sum of the attempts column over the neighborhood. -/
def total_shots (N : List Cell) : ℚ :=
  (((N.map Cell.attempts).sum : ℕ) : ℚ)

/-- Pooled points `total_makes`: the sum of the points column over the neighborhood. -/
def total_makes (N : List Cell) : ℚ :=
  (N.map Cell.points).sum

/-- Regional rate `gamma_i = total_makes / total_shots if total_shots > 0 else 0`. -/
def gamma_of (N : List Cell) : ℚ :=
  if 0 < total_shots N then total_makes N / total_shots N else 0

/-- Mean attempts `n_bar_j`: the mean of the attempts column (sum over count). -/
def n_bar_of (N : List Cell) : ℚ :=
  total_shots N / (N.length : ℚ)

/-- Per-neighbor rate `gamma_j = (points / attempts).replace([inf, -inf], 0).fillna(0)`:
the per-neighbor rate with the divide-by-zero guard. -/
def gamma_j (n : Cell) : ℚ :=
  if n.attempts = 0 then 0 else n.points / (n.attempts : ℚ)

/-- The variance numerator `np.sum(n_j * (r_j - gamma_j) ** 2)` where `r_j` is the
`PPA` column of the neighborhood. -/
def eb_numerator (N : List Cell) : ℚ :=
  (N.map (fun n => (n.attempts : ℚ) * (PPA n - gamma_j n) ^ 2)).sum

/-- Variance component `phi_i`: the floored method-of-moments estimate,
guarded to 0 when the denominator or the mean attempts is not positive.
The denominator `np.sum(n_j)` equals `total_shots`. -/
def phi_of (N : List Cell) : ℚ :=
  if 0 < total_shots N ∧ 0 < n_bar_of N then
    max 0 (eb_numerator N / total_shots N - gamma_of N / n_bar_of N)
  else 0

/-- Shrinkage weight `w_hat_i`: clamped to the unit interval, 0 when the guard fails. -/
def w_hat_of (c : Cell) (N : List Cell) : ℚ :=
  if 0 < (c.attempts : ℚ) ∧ phi_of N + gamma_of N / (c.attempts : ℚ) ≠ 0 then
    max 0 (min 1 (phi_of N / (phi_of N + gamma_of N / (c.attempts : ℚ))))
  else 0

/-- Smoothed rate `theta_i = w_hat_i * r_i + (1 - w_hat_i) * gamma_i`. -/
def theta_of (c : Cell) (N : List Cell) : ℚ :=
  w_hat_of c N * PPA c + (1 - w_hat_of c N) * gamma_of N

structure EBResult where
  phi : ℚ
  w_hat : ℚ
  theta : ℚ
deriving DecidableEq, Repr

/-- The per-cell body of the loop in `do_eb`: empty-neighborhood fallback,
otherwise the normal estimation path. -/
def eb_cell (row : Cell) (active : List Cell) : EBResult :=
  let N := get_neighborhood_params row active
  if N.isEmpty then ⟨0, 0, PPA row⟩
  else ⟨phi_of N, w_hat_of row N, theta_of row N⟩

/-- Attempted rows `active_grids`: the rows of the table whose attempts count is positive. -/
def active_grids (g : List Cell) : List Cell :=
  g.filter (fun c => decide (0 < c.attempts))

structure OutCell where
  cell : Cell
  CellVar : ℚ
  ShrinkWt : ℚ
  EB_PPA : ℚ
deriving DecidableEq, Repr

/-- One output row: attempted cells carry their estimator results (the
merge of `active_grids` back into `grid_data`); zero-attempt cells get the
zero values from the final `.where(attempts > 0, 0)` step. -/
def eb_row (active : List Cell) (c : Cell) : OutCell :=
  if 0 < c.attempts then
    ⟨c, (eb_cell c active).phi, (eb_cell c active).w_hat, (eb_cell c active).theta⟩
  else ⟨c, 0, 0, 0⟩

/-- The pipeline `do_eb` on the annotated grid table: raises `ValueError` when no cell
has attempts, otherwise enriches every row with the three derived columns. -/
def do_eb (g : List Cell) : Except String (List OutCell) :=
  if (active_grids g).isEmpty then
    Except.error ("No grids with attempts for analysis.")
  else
    Except.ok (g.map (eb_row (active_grids g)))

/-- A concrete attempted cell used by several witnesses. -/
def cW : Cell := ⟨0, 1, 2, 1, 1⟩

/-- A second concrete attempted cell used by several witnesses. -/
def c0 : Cell := ⟨0, 1, 3, 2, 1⟩

/-- A concrete zero-attempt cell used by several witnesses. -/
def cZ : Cell := ⟨2, 0, 0, 0, 1⟩

/-- A concrete two-row table: one attempted cell, one zero-attempt cell. -/
def tblW : List Cell := [cW, cZ]

/-- The output table `do_eb` produces on `tblW`. -/
def outW : List OutCell := [eb_row [cW] cW, ⟨cZ, 0, 0, 0⟩]

lemma mem_neighborhood_iff {row n : Cell} {gdf : List Cell} :
    n ∈ get_neighborhood_params row gdf ↔
      n ∈ gdf ∧ |n.dist - row.dist| ≤ equidistant_range row.dist ∧
        sqDist row n ≤ (close_range row.dist) ^ 2 ∧ 0 < n.attempts := by
  simp [get_neighborhood_params, is_neighbor, List.mem_filter, Bool.and_eq_true,
    decide_eq_true_eq, and_assoc]

lemma neighborhood_attempts_pos {row : Cell} {gdf : List Cell} :
    ∀ n ∈ get_neighborhood_params row gdf, 0 < n.attempts :=
  fun _ hn => (mem_neighborhood_iff.mp hn).2.2.2

lemma equidistant_range_pos (d : ℚ) : 0 < equidistant_range d := by
  unfold equidistant_range
  split
  · norm_num
  · rename_i h
    have h9 : (9.144 : ℚ) ≤ d := not_lt.mp h
    have hx : (0 : ℚ) ≤ 0.1524 * (d - 9.144) :=
      mul_nonneg (by norm_num) (by linarith)
    have hb : (0 : ℚ) < 0.3658 := by norm_num
    linarith

lemma close_range_pos (d : ℚ) : 0 < close_range d := by
  unfold close_range
  split
  · norm_num
  · rename_i h
    have h9 : (9.144 : ℚ) ≤ d := not_lt.mp h
    have hx : (0 : ℚ) ≤ 0.3048 * (d - 9.144) :=
      mul_nonneg (by norm_num) (by linarith)
    have hb : (0 : ℚ) < 1.524 := by norm_num
    linarith

lemma self_mem_neighborhood {c : Cell} {gdf : List Cell}
    (hc : 0 < c.attempts) (hmem : c ∈ gdf) :
    c ∈ get_neighborhood_params c gdf := by
  rw [mem_neighborhood_iff]
  refine ⟨hmem, ?_, ?_, hc⟩
  · rw [sub_self, abs_zero]
    exact (equidistant_range_pos c.dist).le
  · have h0 : sqDist c c = 0 := by simp [sqDist]
    rw [h0]
    exact sq_nonneg _

lemma eb_numerator_eq_zero (N : List Cell)
    (hA : ∀ n ∈ N, 0 < n.attempts) : eb_numerator N = 0 := by
  unfold eb_numerator
  apply List.sum_eq_zero
  intro x hx
  obtain ⟨n, hn, rfl⟩ := List.mem_map.mp hx
  have hpos := hA n hn
  have hne : n.attempts ≠ 0 := Nat.pos_iff_ne_zero.mp hpos
  simp [PPA, gamma_j, hpos, hne]

lemma total_makes_nonneg (N : List Cell)
    (hp : ∀ n ∈ N, 0 ≤ n.points) : 0 ≤ total_makes N := by
  unfold total_makes
  apply List.sum_nonneg
  intro x hx
  obtain ⟨n, hn, rfl⟩ := List.mem_map.mp hx
  exact hp n hn

lemma gamma_of_nonneg (N : List Cell)
    (hp : ∀ n ∈ N, 0 ≤ n.points) : 0 ≤ gamma_of N := by
  unfold gamma_of
  split
  · exact div_nonneg (total_makes_nonneg N hp) (le_of_lt (by assumption))
  · exact le_refl 0

lemma phi_of_nonneg (N : List Cell) : 0 ≤ phi_of N := by
  unfold phi_of
  split
  · exact le_max_left 0 _
  · exact le_refl 0

lemma w_hat_of_nonneg (c : Cell) (N : List Cell) : 0 ≤ w_hat_of c N := by
  unfold w_hat_of
  split
  · exact le_max_left 0 _
  · exact le_refl 0

lemma w_hat_of_le_one (c : Cell) (N : List Cell) : w_hat_of c N ≤ 1 := by
  unfold w_hat_of
  split
  · exact max_le zero_le_one (min_le_left _ _)
  · exact zero_le_one

lemma phi_of_eq_zero (N : List Cell)
    (hA : ∀ n ∈ N, 0 < n.attempts) (hp : ∀ n ∈ N, 0 ≤ n.points) :
    phi_of N = 0 := by
  unfold phi_of
  split
  · rename_i hgate
    rw [eb_numerator_eq_zero N hA, zero_div, zero_sub]
    exact max_eq_left (neg_nonpos.mpr (div_nonneg (gamma_of_nonneg N hp) hgate.2.le))
  · rfl

lemma w_hat_of_eq_zero (c : Cell) (N : List Cell)
    (hA : ∀ n ∈ N, 0 < n.attempts) (hp : ∀ n ∈ N, 0 ≤ n.points) :
    w_hat_of c N = 0 := by
  unfold w_hat_of
  rw [phi_of_eq_zero N hA hp]
  split
  · rw [zero_div, min_eq_right zero_le_one, max_self]
  · rfl

lemma total_shots_pos_of_ne_nil (N : List Cell)
    (hA : ∀ n ∈ N, 0 < n.attempts) (hne : N ≠ []) :
    0 < total_shots N := by
  obtain ⟨n, hn⟩ := List.exists_mem_of_ne_nil N hne
  have hpos := hA n hn
  have hmem : n.attempts ∈ N.map Cell.attempts := List.mem_map_of_mem _ hn
  have hle : n.attempts ≤ (N.map Cell.attempts).sum :=
    List.single_le_sum (fun x _ => Nat.zero_le x) _ hmem
  unfold total_shots
  exact_mod_cast Nat.lt_of_lt_of_le hpos hle

lemma eb_cell_of_ne_nil (c : Cell) (active : List Cell)
    (h : get_neighborhood_params c active ≠ []) :
    eb_cell c active =
      ⟨phi_of (get_neighborhood_params c active),
       w_hat_of c (get_neighborhood_params c active),
       theta_of c (get_neighborhood_params c active)⟩ := by
  unfold eb_cell
  cases hN : get_neighborhood_params c active with
  | nil => exact absurd hN h
  | cons a as => simp [hN]

lemma eb_row_cell (active : List Cell) (c : Cell) : (eb_row active c).cell = c := by
  unfold eb_row
  split <;> rfl

/-- C1: in the between-cell variance formula of `do_eb`, for every cell whose
neighborhood of attempted cells is non-empty, the numerator
`np.sum(n_j * (r_j - gamma_j) ** 2)` is exactly 0, because `r_j` (the `PPA`
column) and `gamma_j` (points over attempts with the divide-by-zero guard)
are the same per-cell rate for every neighbor. -/
theorem C1_variance_numerator_exactly_zero (row : Cell) (gdf : List Cell)
    (hne : get_neighborhood_params row gdf ≠ []) :
    eb_numerator (get_neighborhood_params row gdf) = 0 :=
  eb_numerator_eq_zero _ neighborhood_attempts_pos

/-- Witness for C1 at the concrete cell `cW` whose neighborhood in `[cW]`
is non-empty. -/
theorem C1_variance_numerator_exactly_zero_witness :
    get_neighborhood_params cW [cW] ≠ [] ∧
      eb_numerator (get_neighborhood_params cW [cW]) = 0 := by
  have hmem : cW ∈ get_neighborhood_params cW [cW] :=
    self_mem_neighborhood (by simp [cW]) (List.mem_singleton_self cW)
  have hne := List.ne_nil_of_mem hmem
  exact ⟨hne, C1_variance_numerator_exactly_zero cW [cW] hne⟩

/-- C2: for every attempted cell with a non-empty neighborhood whose members
all have non-negative points (positive attempts holds by the filter), the
variance component is 0, the shrinkage weight is 0, and the smoothed rate
equals the pooled regional rate `gamma` of the neighborhood, which is total
points over total attempts; the raw rate of the cell gets zero weight. -/
theorem C2_smoothed_rate_is_regional_rate (c : Cell) (active : List Cell)
    (hc : 0 < c.attempts)
    (hne : get_neighborhood_params c active ≠ [])
    (hp : ∀ n ∈ get_neighborhood_params c active, 0 ≤ n.points) :
    (eb_cell c active).phi = 0 ∧ (eb_cell c active).w_hat = 0 ∧
      (eb_cell c active).theta = gamma_of (get_neighborhood_params c active) ∧
      gamma_of (get_neighborhood_params c active) =
        total_makes (get_neighborhood_params c active) /
          total_shots (get_neighborhood_params c active) := by
  rw [eb_cell_of_ne_nil c active hne]
  have hA : ∀ n ∈ get_neighborhood_params c active, 0 < n.attempts :=
    neighborhood_attempts_pos
  have hphi := phi_of_eq_zero _ hA hp
  have hw := w_hat_of_eq_zero c _ hA hp
  refine ⟨hphi, hw, ?_, ?_⟩
  · show theta_of c _ = _
    unfold theta_of
    rw [hw]
    ring
  · unfold gamma_of
    rw [if_pos (total_shots_pos_of_ne_nil _ hA hne)]

/-- Witness for C2 at the concrete cell `cW` against the table `[cW]`. -/
theorem C2_smoothed_rate_is_regional_rate_witness :
    (eb_cell cW [cW]).phi = 0 ∧ (eb_cell cW [cW]).w_hat = 0 ∧
      (eb_cell cW [cW]).theta = gamma_of (get_neighborhood_params cW [cW]) ∧
      gamma_of (get_neighborhood_params cW [cW]) =
        total_makes (get_neighborhood_params cW [cW]) /
          total_shots (get_neighborhood_params cW [cW]) := by
  have hmem : cW ∈ get_neighborhood_params cW [cW] :=
    self_mem_neighborhood (by simp [cW]) (List.mem_singleton_self cW)
  refine C2_smoothed_rate_is_regional_rate cW [cW] (by simp [cW])
    (List.ne_nil_of_mem hmem) ?_
  intro n hn
  have hn1 : n ∈ [cW] := List.mem_of_mem_filter hn
  have : n = cW := by simpa using hn1
  subst this
  show (0 : ℚ) ≤ (1 : ℚ)
  norm_num

/-- C3 counterexample: the target cell is NOT excluded from its own
neighborhood — with `c0` in the candidate table, `c0` itself is returned by
the Neighborhood Selector, so not every returned `n` satisfies `n ≠ c0`. -/
theorem C3_counterexample_self_returned :
    ¬ (∀ n ∈ get_neighborhood_params c0 [c0], n ≠ c0) := fun h =>
  h c0 (self_mem_neighborhood (by simp [c0]) (List.mem_singleton_self c0)) rfl

/-- C3 amended: the Selector does not exclude the target cell: whenever the
attempted target cell is itself in the candidate table, it is a member of
the set it returns (it passes the band, proximity and attempts tests
against itself). -/
theorem C3_amended_target_not_excluded (c : Cell) (gdf : List Cell)
    (hc : 0 < c.attempts) (hmem : c ∈ gdf) :
    c ∈ get_neighborhood_params c gdf :=
  self_mem_neighborhood hc hmem

/-- Witness for the amended C3 at the concrete cell `c0`. -/
theorem C3_amended_target_not_excluded_witness :
    c0 ∈ get_neighborhood_params c0 [c0] :=
  C3_amended_target_not_excluded c0 [c0] (by simp [c0]) (List.mem_singleton_self c0)

/-- C4: every cell of the table with positive attempts is a member of its own
neighborhood computed against `active_grids`, hence that neighborhood is
never empty and `eb_cell` always takes the normal estimation branch — the
empty-neighborhood fallback of the `do_eb` loop is unreachable. -/
theorem C4_fallback_unreachable (g : List Cell) (c : Cell)
    (hmem : c ∈ g) (hc : 0 < c.attempts) :
    c ∈ get_neighborhood_params c (active_grids g) ∧
      get_neighborhood_params c (active_grids g) ≠ [] ∧
      eb_cell c (active_grids g) =
        ⟨phi_of (get_neighborhood_params c (active_grids g)),
         w_hat_of c (get_neighborhood_params c (active_grids g)),
         theta_of c (get_neighborhood_params c (active_grids g))⟩ := by
  have hca : c ∈ active_grids g :=
    List.mem_filter.mpr ⟨hmem, decide_eq_true hc⟩
  have h1 := self_mem_neighborhood hc hca
  have hne := List.ne_nil_of_mem h1
  exact ⟨h1, hne, eb_cell_of_ne_nil c (active_grids g) hne⟩

/-- Witness for C4 at the concrete cell `c0` in the table `[c0]`. -/
theorem C4_fallback_unreachable_witness :
    c0 ∈ get_neighborhood_params c0 (active_grids [c0]) ∧
      get_neighborhood_params c0 (active_grids [c0]) ≠ [] ∧
      eb_cell c0 (active_grids [c0]) =
        ⟨phi_of (get_neighborhood_params c0 (active_grids [c0])),
         w_hat_of c0 (get_neighborhood_params c0 (active_grids [c0])),
         theta_of c0 (get_neighborhood_params c0 (active_grids [c0]))⟩ :=
  C4_fallback_unreachable [c0] c0 (List.mem_singleton_self c0) (by simp [c0])

/-- C5 counterexample: on a validated table whose only cell has zero
attempts, `do_eb` does not complete — it raises
`ValueError("No grids with attempts for analysis.")` instead of emitting a
smoothed value for every cell. -/
theorem C5_counterexample_raises_on_no_attempts :
    do_eb [cZ] = Except.error ("No grids with attempts for analysis.") := rfl

/-- C5 amended: provided at least one cell has positive attempts, `do_eb`
completes without raising and emits an output row for every input cell, in
order; when no cell has positive attempts it raises `ValueError` instead. -/
theorem C5_amended_completes_when_some_attempted (g : List Cell)
    (h : ∃ c ∈ g, 0 < c.attempts) :
    ∃ out, do_eb g = Except.ok out ∧ out.map OutCell.cell = g := by
  obtain ⟨c, hc, hpos⟩ := h
  have hca : c ∈ active_grids g :=
    List.mem_filter.mpr ⟨hc, decide_eq_true hpos⟩
  have hne : (active_grids g).isEmpty = false := by
    cases hag : active_grids g with
    | nil => rw [hag] at hca; exact absurd hca (List.not_mem_nil c)
    | cons a as => rfl
  refine ⟨g.map (eb_row (active_grids g)), ?_, ?_⟩
  · unfold do_eb
    rw [hne]
    rfl
  · rw [List.map_map]
    have hid : OutCell.cell ∘ eb_row (active_grids g) = id := by
      funext x
      exact eb_row_cell (active_grids g) x
    rw [hid, List.map_id]

/-- Witness for the amended C5 at the concrete table `tblW`. -/
theorem C5_amended_completes_when_some_attempted_witness :
    ∃ out, do_eb tblW = Except.ok out ∧ out.map OutCell.cell = tblW :=
  C5_amended_completes_when_some_attempted tblW
    ⟨cW, List.mem_cons_self cW [cZ], by simp [cW]⟩

/-- C6: every output row of a successful `do_eb` run whose cell has zero
attempts carries the three zero values: `CellVar = 0`, `ShrinkWt = 0`,
`EB_PPA = 0`, regardless of geometry or neighbor data. -/
theorem C6_zero_attempt_rows_all_zero (g : List Cell) (out : List OutCell)
    (h : do_eb g = Except.ok out) (o : OutCell) (ho : o ∈ out)
    (hz : o.cell.attempts = 0) :
    o.CellVar = 0 ∧ o.ShrinkWt = 0 ∧ o.EB_PPA = 0 := by
  unfold do_eb at h
  split at h
  · exact absurd h (by simp)
  · rw [Except.ok.injEq] at h
    subst h
    obtain ⟨c, hcg, rfl⟩ := List.mem_map.mp ho
    rw [eb_row_cell] at hz
    have hc : ¬ 0 < c.attempts := by omega
    unfold eb_row
    rw [if_neg hc]
    exact ⟨rfl, rfl, rfl⟩

/-- Witness for C6: the zero-attempt row of `do_eb tblW` carries zeros. -/
theorem C6_zero_attempt_rows_all_zero_witness :
    (⟨cZ, 0, 0, 0⟩ : OutCell).CellVar = 0 ∧
      (⟨cZ, 0, 0, 0⟩ : OutCell).ShrinkWt = 0 ∧
      (⟨cZ, 0, 0, 0⟩ : OutCell).EB_PPA = 0 :=
  C6_zero_attempt_rows_all_zero tblW outW rfl ⟨cZ, 0, 0, 0⟩
    (by simp [outW]) rfl

/-- C7: for every attempted cell the estimator output satisfies the clamp
invariants: the shrinkage weight lies in the unit interval and the variance
component is non-negative. -/
theorem C7_weight_and_variance_bounds (c : Cell) (active : List Cell)
    (hc : 0 < c.attempts) :
    0 ≤ (eb_cell c active).w_hat ∧ (eb_cell c active).w_hat ≤ 1 ∧
      0 ≤ (eb_cell c active).phi := by
  cases hN : get_neighborhood_params c active with
  | nil => simp [eb_cell, hN]
  | cons a as =>
    rw [eb_cell_of_ne_nil c active (by rw [hN]; exact List.cons_ne_nil a as)]
    exact ⟨w_hat_of_nonneg c _, w_hat_of_le_one c _, phi_of_nonneg _⟩

/-- Witness for C7 at the concrete cell `cW`. -/
theorem C7_weight_and_variance_bounds_witness :
    0 ≤ (eb_cell cW [cW]).w_hat ∧ (eb_cell cW [cW]).w_hat ≤ 1 ∧
      0 ≤ (eb_cell cW [cW]).phi :=
  C7_weight_and_variance_bounds cW [cW] (by simp [cW])

/-- C8: when the Neighborhood Selector returns the empty set for an attempted
cell, the estimator falls back to variance 0, weight 0, and a smoothed rate
exactly equal to the raw rate of the cell. -/
theorem C8_empty_neighborhood_fallback (c : Cell) (active : List Cell)
    (hc : 0 < c.attempts) (hN : get_neighborhood_params c active = []) :
    eb_cell c active = ⟨0, 0, PPA c⟩ := by
  simp [eb_cell, hN]

/-- Witness for C8: against an empty candidate table the neighborhood of
`c0` is empty and the fallback values are produced. -/
theorem C8_empty_neighborhood_fallback_witness :
    0 < c0.attempts ∧ get_neighborhood_params c0 [] = [] ∧
      eb_cell c0 [] = ⟨0, 0, PPA c0⟩ :=
  ⟨by simp [c0], rfl, C8_empty_neighborhood_fallback c0 [] (by simp [c0]) rfl⟩

/-- C9: for an attempted cell with a non-empty neighborhood the smoothed rate
is a convex combination of the raw rate and the regional rate, so it lies
between their minimum and maximum inclusive. -/
theorem C9_convex_combination (c : Cell) (active : List Cell)
    (hc : 0 < c.attempts) (hne : get_neighborhood_params c active ≠ []) :
    min (PPA c) (gamma_of (get_neighborhood_params c active)) ≤
        (eb_cell c active).theta ∧
      (eb_cell c active).theta ≤
        max (PPA c) (gamma_of (get_neighborhood_params c active)) := by
  rw [eb_cell_of_ne_nil c active hne]
  have hw0 := w_hat_of_nonneg c (get_neighborhood_params c active)
  have hw1 := w_hat_of_le_one c (get_neighborhood_params c active)
  show min (PPA c) _ ≤ theta_of c _ ∧ theta_of c _ ≤ max (PPA c) _
  unfold theta_of
  constructor
  · rcases le_total (PPA c) (gamma_of (get_neighborhood_params c active)) with h | h
    · rw [min_eq_left h]
      nlinarith [mul_nonneg (sub_nonneg.mpr hw1) (sub_nonneg.mpr h)]
    · rw [min_eq_right h]
      nlinarith [mul_nonneg hw0 (sub_nonneg.mpr h)]
  · rcases le_total (PPA c) (gamma_of (get_neighborhood_params c active)) with h | h
    · rw [max_eq_right h]
      nlinarith [mul_nonneg hw0 (sub_nonneg.mpr h)]
    · rw [max_eq_left h]
      nlinarith [mul_nonneg (sub_nonneg.mpr hw1) (sub_nonneg.mpr h)]

/-- Witness for C9 at the concrete cell `cW` against the table `[cW]`. -/
theorem C9_convex_combination_witness :
    min (PPA cW) (gamma_of (get_neighborhood_params cW [cW])) ≤
        (eb_cell cW [cW]).theta ∧
      (eb_cell cW [cW]).theta ≤
        max (PPA cW) (gamma_of (get_neighborhood_params cW [cW])) :=
  C9_convex_combination cW [cW] (by simp [cW])
    (List.ne_nil_of_mem
      (self_mem_neighborhood (by simp [cW]) (List.mem_singleton_self cW)))

/-- C10: crossing the 9.144 near-threshold, a cell below it gets the fixed
radii 0.3658 and 1.524, while a cell strictly beyond it gets strictly larger
radii, each equal to its base constant plus its slope times the excess
distance (linear growth). -/
theorem C10_radii_grow_beyond_threshold (d1 d2 : ℚ)
    (h1 : d1 < 9.144) (h2 : 9.144 < d2) :
    equidistant_range d1 = 0.3658 ∧ close_range d1 = 1.524 ∧
      0.3658 < equidistant_range d2 ∧ 1.524 < close_range d2 ∧
      equidistant_range d2 = 0.3658 + 0.1524 * (d2 - 9.144) ∧
      close_range d2 = 1.524 + 0.3048 * (d2 - 9.144) := by
  have h2n : ¬ d2 < 9.144 := not_lt.mpr h2.le
  have hband : equidistant_range d2 = 0.3658 + 0.1524 * (d2 - 9.144) := by
    unfold equidistant_range
    rw [if_neg h2n]
  have hprox : close_range d2 = 1.524 + 0.3048 * (d2 - 9.144) := by
    unfold close_range
    rw [if_neg h2n]
  have hxb : (0 : ℚ) < 0.1524 * (d2 - 9.144) :=
    mul_pos (by norm_num) (by linarith)
  have hxp : (0 : ℚ) < 0.3048 * (d2 - 9.144) :=
    mul_pos (by norm_num) (by linarith)
  refine ⟨?_, ?_, ?_, ?_, hband, hprox⟩
  · unfold equidistant_range
    rw [if_pos h1]
  · unfold close_range
    rw [if_pos h1]
  · rw [hband]; linarith
  · rw [hprox]; linarith

/-- Witness for C10 at the concrete distances 0 and 10. -/
theorem C10_radii_grow_beyond_threshold_witness :
    equidistant_range 0 = 0.3658 ∧ close_range 0 = 1.524 ∧
      0.3658 < equidistant_range 10 ∧ 1.524 < close_range 10 ∧
      equidistant_range 10 = 0.3658 + 0.1524 * ((10 : ℚ) - 9.144) ∧
      close_range 10 = 1.524 + 0.3048 * ((10 : ℚ) - 9.144) :=
  C10_radii_grow_beyond_threshold 0 10 (by norm_num) (by norm_num)
